import Mathlib

/-!
Shallow embedding of `storage/key_index.go`: the per-key multi-version
revision index `keyIndex` of the etcd storage package, together with its
operations `put`, `tombstone`, `get`, `compact`, `isEmpty`,
`findGeneration` and the `generation.walk` helper, followed by theorems
about them.

Modelling conventions:
* Go `int64` values are modeled as `Int` (no arithmetic in the source can
  overflow; the values are logical clocks fed monotonically by the caller).
* A Go `log.Panic` / `log.Panicf` (and the unreachable out-of-range slice
  index) is modeled by the operation returning `none`.
* The Go `available map[reversion]struct` argument of `compact` is modeled
  as a `Finset reversion`; `available[rev] = struct` becomes `insert rev`,
  `delete(available, rev)` becomes `Finset.erase`.
* In-place mutation is modeled by returning the updated value.
-/

/-- The `reversion` struct used throughout `key_index.go`.
Modelled from the spec: the struct itself is declared in a sibling file of
the `storage` package that is not part of the excerpt; per the spec
(section 3) it is the pair of `int64` fields `main` (global logical clock)
and `sub` (order inside one `main`), in that order, which matches the
composite literal `reversion{rev, subrev}` and the `rev.main` field
accesses in `key_index.go`. -/
structure reversion where
  main : Int
  sub : Int
deriving DecidableEq, Repr

/-- Go `type generation struct`: `ver` counts puts in this generation, `revs`
is the oldest-first list of reversions. -/
structure generation where
  ver : Int
  revs : List reversion
deriving DecidableEq, Repr

/-- Go `func (g *generation) isEmpty() bool` for a non-nil receiver: the
generation has no revisions.  (The nil-receiver case of the Go method is
handled with `Option` at its call sites, where a nil pointer is `none`.) -/
def generation.isEmpty (g : generation) : Bool :=
  g.revs.isEmpty

/-- The scanning loop of `func (g *generation) walk(f) int`: the Go code
visits `g.revs` newest-to-oldest, so here the input list is the reversed
(newest-first) revision list and the scan runs front-to-back.  It stops at
the first reversion on which `f` returns false and returns that
reversion's index in the original oldest-first list (`l - i - 1` in the Go
code), which equals the length of the not-yet-visited tail; `none` models
the Go return value `-1` (the walk finished without `f` returning
false). -/
def walkGo (f : reversion → Bool) : List reversion → Option Nat
  | [] => none
  | r :: rs => if f r then walkGo f rs else some rs.length

/-- Go `func (g *generation) walk(f func(rev reversion) bool) int`:
scan the revisions newest-to-oldest. -/
def generation.walk (g : generation) (f : reversion → Bool) : Option Nat :=
  walkGo f g.revs.reverse

/-- Structural restatement of the walk that recurses on the oldest-first
list directly: it returns the largest index whose reversion fails `f`
(`none` when every reversion satisfies `f`).  `walk_eq_walkIdx` below
proves it equal to the Go scan `generation.walk`; it exists because
front-first recursion is far more convenient for proofs. -/
def walkIdx (f : reversion → Bool) : List reversion → Option Nat
  | [] => none
  | r :: rs =>
    match walkIdx f rs with
    | some n => some (n + 1)
    | none => if f r then none else some 0

/-- Go `type keyIndex struct`: raw key bytes, latest reversion `rev`, and the
oldest-first generation list. -/
structure keyIndex where
  key : List Nat
  rev : Int
  generations : List generation
deriving DecidableEq, Repr

/-- Go `func (ki *keyIndex) isEmpty() bool`:
`len(ki.generations) == 1 && ki.generations[0].isEmpty()`. -/
def keyIndex.isEmpty (ki : keyIndex) : Bool :=
  match ki.generations with
  | [g] => g.isEmpty
  | _ => false

/-- The in-place mutation of the last element of the generation slice
performed by `put` (`g := &ki.generations[len(ki.generations)-1];
g.revs = append(g.revs, reversion{rev, subrev}); g.ver++`), written as a
total recursion over the list.  On the empty list (never reached from
`put`) it is the identity. -/
def appendToLast (rv : reversion) : List generation → List generation
  | [] => []
  | [g] => [{ ver := g.ver + 1, revs := g.revs ++ [rv] }]
  | g :: g2 :: gs => g :: appendToLast rv (g2 :: gs)

/-- Go `func (ki *keyIndex) put(rev int64, subrev int64)`: `none` models the
`log.Panicf` on a regressing reversion (`rev < ki.rev`); otherwise an empty
generation is appended first if the generation slice is empty, then the
reversion is appended to the last generation, whose `ver` is incremented,
and `ki.rev` is set to `rev`. -/
def keyIndex.put (ki : keyIndex) (rev subrev : Int) : Option keyIndex :=
  if rev < ki.rev then none
  else
    let gens :=
      if ki.generations.isEmpty then ki.generations ++ [{ ver := 0, revs := [] }]
      else ki.generations
    some { ki with rev := rev,
                   generations := appendToLast { main := rev, sub := subrev } gens }

/-- Go `func (ki *keyIndex) tombstone(rev int64, subrev int64)`: `none` models
the `log.Panicf` on an `isEmpty()` index; otherwise it behaves as `put`
followed by appending a new empty generation. -/
def keyIndex.tombstone (ki : keyIndex) (rev subrev : Int) : Option keyIndex :=
  if ki.isEmpty then none
  else
    match ki.put rev subrev with
    | none => none
    | some ki2 => some { ki2 with generations := ki2.generations ++ [{ ver := 0, revs := [] }] }

/-- One test of the loop body of `findGeneration`: position `j` of the
generation list holds a non-empty generation whose earliest reversion has
`main <= rev`.  Positions holding empty generations, and positions out of
range, do not qualify (the Go loop skips the former with `continue` and
never visits the latter). -/
def genQual (gens : List generation) (rev : Int) (j : Nat) : Bool :=
  match gens[j]? with
  | none => false
  | some g =>
    match g.revs with
    | [] => false
    | r :: _ => decide (r.main ≤ rev)

/-- The countdown loop of `func (ki *keyIndex) findGeneration(rev int64)`:
starting at position `cg` and scanning down to position `0`, return the
first position that qualifies (`genQual`), else `none` (the Go `nil`). -/
def findGenAux (gens : List generation) (rev : Int) : Nat → Option Nat
  | 0 => if genQual gens rev 0 then some 0 else none
  | cg + 1 => if genQual gens rev (cg + 1) then some (cg + 1) else findGenAux gens rev cg

/-- Go `func (ki *keyIndex) findGeneration(rev int64) *generation`, modeled as
returning the index of the slice element the returned pointer
`&ki.generations[cg]` refers to; `none` models the `nil` return (also for
an index with no generations at all, where the Go loop body never runs). -/
def keyIndex.findGeneration (ki : keyIndex) (rev : Int) : Option Nat :=
  findGenAux ki.generations rev (ki.generations.length - 1)

/-- The two non-panicking outcomes of `get`: a found reversion, or the Go
error `ErrReversionNotFound`. -/
inductive getResult where
  | found (r : reversion)
  | notFound
deriving DecidableEq, Repr

/-- Go `func (ki *keyIndex) get(atRev int64) (reversion, error)`:
`none` models the `log.Panicf` on an `isEmpty()` index (and the
unreachable out-of-range index), `some .notFound` models the
`ErrReversionNotFound` return.  The callback `f` returns false exactly on
a reversion with `main <= atRev`. -/
def keyIndex.get (ki : keyIndex) (atRev : Int) : Option getResult :=
  if ki.isEmpty then none
  else
    match ki.findGeneration atRev with
    | none => some .notFound
    | some gi =>
      match ki.generations[gi]? with
      | none => none
      | some g =>
        if g.isEmpty then some .notFound
        else
          match g.walk (fun r => decide (atRev < r.main)) with
          | some n =>
            match g.revs[n]? with
            | some r => some (.found r)
            | none => none
          | none => some .notFound

/-- Go `func (ki *keyIndex) compact(atRev int64, available map)`:
`none` models the `log.Panic` on an `isEmpty()` index.  The callback
passed to `walk` inserts into `available` exactly the reversion at which
the walk stops (the first one, newest-to-oldest, with `main <= atRev`) and
nothing else, because the insertion and the `return false` that stops the
walk happen together; this is modeled by running the walk with the pure
predicate and inserting the reversion found at the stop position.  The Go
loop that recovers the position `i` of the pointer `g` in the generation
slice by pointer comparison recovers exactly the index `gi` returned by
`findGeneration`. -/
def keyIndex.compact (ki : keyIndex) (atRev : Int) (available : Finset reversion) :
    Option (keyIndex × Finset reversion) :=
  if ki.isEmpty then none
  else
    match ki.findGeneration atRev with
    | none => some (ki, available)
    | some gi =>
      match ki.generations[gi]? with
      | none => none
      | some g =>
        if g.isEmpty then
          some ({ ki with generations := ki.generations.drop gi }, available)
        else
          let step : generation × Finset reversion :=
            match g.walk (fun r => decide (atRev < r.main)) with
            | some n =>
              match g.revs[n]? with
              | some b => ({ g with revs := g.revs.drop n }, insert b available)
              | none => ({ g with revs := g.revs.drop n }, available)
            | none => (g, available)
          if step.1.revs.length = 1 ∧ gi ≠ ki.generations.length - 1 then
            match step.1.revs[0]? with
            | some r0 =>
              some ({ ki with generations := ki.generations.drop (gi + 1) }, step.2.erase r0)
            | none => none
          else
            some ({ ki with generations := step.1 :: ki.generations.drop (gi + 1) }, step.2)

/-- A fresh `keyIndex` for key `key`, as the owning store materializes it
before the first `put` (the Go zero value of the struct: `rev = 0` and a
nil generation slice). -/
def freshKi (key : List Nat) : keyIndex :=
  { key := key, rev := 0, generations := [] }

/-- A single mutating operation fed to a `keyIndex` by the owning store. -/
inductive keyOp where
  | putOp (rev sub : Int)
  | tombOp (rev sub : Int)
deriving DecidableEq, Repr

/-- The `main` reversion value supplied by an operation. -/
def keyOp.main : keyOp → Int
  | .putOp r _ => r
  | .tombOp r _ => r

/-- Apply one operation (`put` or `tombstone`). -/
def applyOp (ki : keyIndex) : keyOp → Option keyIndex
  | .putOp r s => ki.put r s
  | .tombOp r s => ki.tombstone r s

/-- Apply a sequence of operations left to right, stopping at the first
panic (`none`). -/
def applyOps : keyIndex → List keyOp → Option keyIndex
  | ki, [] => some ki
  | ki, o :: os =>
    match applyOp ki o with
    | none => none
    | some ki2 => applyOps ki2 os

/-- The key bytes of the string used by the worked example in the source
comment. -/
def fooKey : List Nat := [102, 111, 111]

/-- The operation sequence of the worked example in the source comment:
put(1,0); put(2,0); tombstone(3,0); put(4,0); tombstone(5,0). -/
def fooOps : List keyOp :=
  [.putOp 1 0, .putOp 2 0, .tombOp 3 0, .putOp 4 0, .tombOp 5 0]

/-- The `keyIndex` produced by `fooOps` on a fresh index. -/
def fooIndex : keyIndex :=
  { key := fooKey, rev := 5,
    generations :=
      [ { ver := 3, revs := [⟨1, 0⟩, ⟨2, 0⟩, ⟨3, 0⟩] },
        { ver := 2, revs := [⟨4, 0⟩, ⟨5, 0⟩] },
        { ver := 0, revs := [] } ] }


/-- The index of the worked example after `compact(2)` (the generation
versions are untouched by compaction, only `revs` is trimmed). -/
def fooIndex2 : keyIndex :=
  { key := fooKey, rev := 5,
    generations :=
      [ { ver := 3, revs := [⟨2, 0⟩, ⟨3, 0⟩] },
        { ver := 2, revs := [⟨4, 0⟩, ⟨5, 0⟩] },
        { ver := 0, revs := [] } ] }

/-- The `available` set collected by `compact(2)` on the worked example. -/
def fooAvail2 : Finset reversion := {⟨2, 0⟩}

/-- The index of the worked example after `compact(2)` and `compact(4)`. -/
def fooIndex4 : keyIndex :=
  { key := fooKey, rev := 5,
    generations :=
      [ { ver := 2, revs := [⟨4, 0⟩, ⟨5, 0⟩] },
        { ver := 0, revs := [] } ] }

/-- The `available` set collected after `compact(2)` and `compact(4)`. -/
def fooAvail4 : Finset reversion := {⟨4, 0⟩, ⟨2, 0⟩}

/-- The worked example after `compact(2)`, `compact(4)`, `compact(5)`: a
single empty generation, so `isEmpty()` holds. -/
def emptyFoo : keyIndex :=
  { key := fooKey, rev := 5, generations := [{ ver := 0, revs := [] }] }

/-- put(1,0); put(2,0); tombstone(3,0); put(4,0) - a valid build whose last
closed generation still ends in the tombstone (3,0). -/
def barOps : List keyOp :=
  [.putOp 1 0, .putOp 2 0, .tombOp 3 0, .putOp 4 0]

/-- The `keyIndex` produced by `barOps` on a fresh index. -/
def barIndex : keyIndex :=
  { key := fooKey, rev := 4,
    generations :=
      [ { ver := 3, revs := [⟨1, 0⟩, ⟨2, 0⟩, ⟨3, 0⟩] },
        { ver := 1, revs := [⟨4, 0⟩] } ] }

/-- State of `barIndex` after `compact(3)`: the whole first generation, tombstone
included, is gone. -/
def barIndexC : keyIndex :=
  { key := fooKey, rev := 4, generations := [{ ver := 1, revs := [⟨4, 0⟩] }] }

/-- A closed generation awaiting removal: the state of the worked example
after `compact(4)` (same as `fooIndex4`), used to show what a compaction
that empties the index does to a repeated call. -/
def tombIndex : keyIndex :=
  { key := fooKey, rev := 5,
    generations := [ { ver := 2, revs := [⟨4, 0⟩, ⟨5, 0⟩] }, { ver := 0, revs := [] } ] }

/-- State of `fooIndex` after a further `put(6,0)`. -/
def fooPutIndex : keyIndex :=
  { key := fooKey, rev := 6,
    generations :=
      [ { ver := 3, revs := [⟨1, 0⟩, ⟨2, 0⟩, ⟨3, 0⟩] },
        { ver := 2, revs := [⟨4, 0⟩, ⟨5, 0⟩] },
        { ver := 1, revs := [⟨6, 0⟩] } ] }

/-! ## Walk characterization -/

/-- Elements located by `getElem?` are members of the list. -/
theorem mem_of_getElem?_some {α : Type _} {l : List α} {n : Nat} {a : α}
    (h : l[n]? = some a) : a ∈ l := by
  obtain ⟨hn, rfl⟩ := List.getElem?_eq_some.mp h
  exact List.getElem_mem hn

/-- Appending one element on the right shifts the Go walk by one. -/
theorem walkGo_concat (f : reversion → Bool) (xs : List reversion) (r : reversion) :
    walkGo f (xs ++ [r]) =
      match walkGo f xs with
      | some n => some (n + 1)
      | none => if f r then none else some 0 := by
  induction xs with
  | nil => simp [walkGo]
  | cons x xs ih =>
    cases hfx : f x
    · simp [walkGo, hfx]
    · simp [walkGo, hfx, ih]

/-- The Go walk over the reversed list computes `walkIdx` of the original
oldest-first list. -/
theorem walkGo_reverse (f : reversion → Bool) (l : List reversion) :
    walkGo f l.reverse = walkIdx f l := by
  induction l with
  | nil => rfl
  | cons a l ih =>
    rw [List.reverse_cons, walkGo_concat, ih]
    rfl

/-- The scan `generation.walk` (the faithful Go loop) equals the structural
recursion `walkIdx`. -/
theorem walk_eq_walkIdx (g : generation) (f : reversion → Bool) :
    g.walk f = walkIdx f g.revs :=
  walkGo_reverse f g.revs

/-- Unfolding equation: a newer reversion satisfying `f` on top of a walk
that found nothing leaves the walk finding nothing. -/
theorem walkIdx_cons_of_none_true {f : reversion → Bool} {l : List reversion} {a : reversion}
    (hl : walkIdx f l = none) (hfa : f a = true) : walkIdx f (a :: l) = none := by
  simp [walkIdx, hl, hfa]

/-- Unfolding equation: if nothing newer fails `f` and `a` fails it, the
walk stops at position `0`. -/
theorem walkIdx_cons_of_none_false {f : reversion → Bool} {l : List reversion} {a : reversion}
    (hl : walkIdx f l = none) (hfa : f a = false) : walkIdx f (a :: l) = some 0 := by
  simp [walkIdx, hl, hfa]

/-- Unfolding equation: a stop among the newer reversions shifts by one. -/
theorem walkIdx_cons_of_some {f : reversion → Bool} {l : List reversion} {a : reversion} {k : Nat}
    (hl : walkIdx f l = some k) : walkIdx f (a :: l) = some (k + 1) := by
  simp [walkIdx, hl]

/-- The walk returns `none` (Go `-1`) exactly when every reversion
satisfies `f`. -/
theorem walkIdx_eq_none (f : reversion → Bool) (l : List reversion) :
    walkIdx f l = none ↔ ∀ r ∈ l, f r = true := by
  induction l with
  | nil => simp [walkIdx]
  | cons a l ih =>
    rcases h : walkIdx f l with _ | k
    · cases hfa : f a
      · rw [walkIdx_cons_of_none_false h hfa]
        constructor
        · intro hc; cases hc
        · intro hall
          have := hall a (List.mem_cons_self a l)
          rw [hfa] at this; cases this
      · rw [walkIdx_cons_of_none_true h hfa]
        constructor
        · intro _ r hr
          rcases List.mem_cons.mp hr with rfl | hr
          · exact hfa
          · exact ih.mp h r hr
        · intro _; rfl
    · rw [walkIdx_cons_of_some h]
      constructor
      · intro hc; cases hc
      · intro hall
        have hl : walkIdx f l = none :=
          ih.mpr fun r hr => hall r (List.mem_cons_of_mem a hr)
        rw [h] at hl; cases hl

/-- The walk returns `some n` exactly when `n` is the largest position
whose reversion fails `f`. -/
theorem walkIdx_eq_some_iff (f : reversion → Bool) (l : List reversion) (n : Nat) :
    walkIdx f l = some n ↔
      (∃ r, l[n]? = some r ∧ f r = false) ∧
        ∀ m r', n < m → l[m]? = some r' → f r' = true := by
  induction l generalizing n with
  | nil => simp [walkIdx]
  | cons a l ih =>
    rcases h : walkIdx f l with _ | k
    · have hall : ∀ r ∈ l, f r = true := (walkIdx_eq_none f l).mp h
      cases hfa : f a
      · rw [walkIdx_cons_of_none_false h hfa]
        constructor
        · intro hn
          injection hn with hn; subst hn
          refine ⟨⟨a, by simp, hfa⟩, ?_⟩
          intro m r' hm hr'
          rcases m with _ | m
          · omega
          · rw [List.getElem?_cons_succ] at hr'
            exact hall r' (mem_of_getElem?_some hr')
        · rintro ⟨⟨r, hr, hfr⟩, _⟩
          rcases n with _ | n
          · rfl
          · rw [List.getElem?_cons_succ] at hr
            rw [hall r (mem_of_getElem?_some hr)] at hfr
            cases hfr
      · rw [walkIdx_cons_of_none_true h hfa]
        constructor
        · intro hc; cases hc
        · rintro ⟨⟨r, hr, hfr⟩, _⟩
          exfalso
          rcases n with _ | n
          · rw [List.getElem?_cons_zero] at hr
            injection hr with hr; subst hr
            rw [hfa] at hfr; cases hfr
          · rw [List.getElem?_cons_succ] at hr
            rw [hall r (mem_of_getElem?_some hr)] at hfr
            cases hfr
    · obtain ⟨⟨rk, hrk, hfrk⟩, hupk⟩ := (ih k).mp h
      rw [walkIdx_cons_of_some h]
      constructor
      · intro hn
        injection hn with hn; subst hn
        refine ⟨⟨rk, by rwa [List.getElem?_cons_succ], hfrk⟩, ?_⟩
        intro m r' hm hr'
        rcases m with _ | m
        · omega
        · rw [List.getElem?_cons_succ] at hr'
          exact hupk m r' (by omega) hr'
      · rintro ⟨⟨r, hr, hfr⟩, hup⟩
        rcases n with _ | n
        · exfalso
          have := hup (k + 1) rk (by omega) (by rwa [List.getElem?_cons_succ])
          rw [this] at hfrk; cases hfrk
        · rw [List.getElem?_cons_succ] at hr
          have hln : walkIdx f l = some n := by
            refine (ih n).mpr ⟨⟨r, hr, hfr⟩, ?_⟩
            intro m r' hm hr'
            exact hup (m + 1) r' (by omega) (by rwa [List.getElem?_cons_succ])
          rw [h] at hln
          injection hln with hln
          rw [hln]

/-! ## Generation search characterization -/

/-- Unfolding of `genQual`: position `j` holds a generation whose revision
list starts with a reversion of `main <= rev`. -/
theorem genQual_iff (gens : List generation) (rev : Int) (j : Nat) :
    genQual gens rev j = true ↔
      ∃ g r rs, gens[j]? = some g ∧ g.revs = r :: rs ∧ r.main ≤ rev := by
  rcases h : gens[j]? with _ | g
  · simp [genQual, h]
  · rcases hr : g.revs with _ | ⟨r, rs⟩
    · simp [genQual, h, hr]
    · simp only [genQual, h, hr, decide_eq_true_eq]
      constructor
      · intro hle
        exact ⟨g, r, rs, rfl, hr, hle⟩
      · rintro ⟨g', r', rs', hg', hr', hle⟩
        injection hg' with hg'; subst hg'
        rw [hr] at hr'
        injection hr' with hr' _
        subst hr'; exact hle

/-- Positions at or past the end of the generation list never qualify. -/
theorem genQual_false_of_len {gens : List generation} {rev : Int} {j : Nat}
    (h : gens.length ≤ j) : genQual gens rev j = false := by
  simp [genQual, List.getElem?_eq_none h]

/-- A qualifying position is a valid index. -/
theorem genQual_lt_length {gens : List generation} {rev : Int} {j : Nat}
    (h : genQual gens rev j = true) : j < gens.length := by
  obtain ⟨g, r, rs, hg, _, _⟩ := (genQual_iff gens rev j).mp h
  exact (List.getElem?_eq_some.mp hg).1

/-- Qualification is monotone in the queried reversion. -/
theorem genQual_mono {gens : List generation} {a b : Int} {j : Nat}
    (h : genQual gens a j = true) (hab : a ≤ b) : genQual gens b j = true := by
  obtain ⟨g, r, rs, hg, hr, hle⟩ := (genQual_iff gens a j).mp h
  exact (genQual_iff gens b j).mpr ⟨g, r, rs, hg, hr, le_trans hle hab⟩

/-- Unfolding equation of `findGenAux` at `0`, qualifying. -/
theorem findGenAux_zero_pos {gens : List generation} {rev : Int}
    (h : genQual gens rev 0 = true) : findGenAux gens rev 0 = some 0 := by
  simp [findGenAux, h]

/-- Unfolding equation of `findGenAux` at `0`, not qualifying. -/
theorem findGenAux_zero_neg {gens : List generation} {rev : Int}
    (h : genQual gens rev 0 = false) : findGenAux gens rev 0 = none := by
  simp [findGenAux, h]

/-- Unfolding equation of `findGenAux` at `cg + 1`, qualifying. -/
theorem findGenAux_succ_pos {gens : List generation} {rev : Int} {cg : Nat}
    (h : genQual gens rev (cg + 1) = true) :
    findGenAux gens rev (cg + 1) = some (cg + 1) := by
  simp [findGenAux, h]

/-- Unfolding equation of `findGenAux` at `cg + 1`, not qualifying. -/
theorem findGenAux_succ_neg {gens : List generation} {rev : Int} {cg : Nat}
    (h : genQual gens rev (cg + 1) = false) :
    findGenAux gens rev (cg + 1) = findGenAux gens rev cg := by
  simp [findGenAux, h]

/-- The countdown loop returns `some j` exactly when `j` is the largest
qualifying position not exceeding the start position `cg`. -/
theorem findGenAux_eq_some_iff (gens : List generation) (rev : Int) (cg j : Nat) :
    findGenAux gens rev cg = some j ↔
      j ≤ cg ∧ genQual gens rev j = true ∧
        ∀ k, j < k → k ≤ cg → genQual gens rev k = false := by
  induction cg with
  | zero =>
    cases h : genQual gens rev 0
    · rw [findGenAux_zero_neg h]
      constructor
      · intro hc; cases hc
      · rintro ⟨hj, hq, _⟩
        interval_cases j
        rw [hq] at h; cases h
    · rw [findGenAux_zero_pos h]
      constructor
      · intro hj
        injection hj with hj; subst hj
        exact ⟨le_refl 0, h, fun k hk hk0 => by omega⟩
      · rintro ⟨hj, hq, _⟩
        interval_cases j
        rfl
  | succ cg ih =>
    cases h : genQual gens rev (cg + 1)
    · rw [findGenAux_succ_neg h, ih]
      constructor
      · rintro ⟨hj, hq, hup⟩
        refine ⟨by omega, hq, ?_⟩
        intro k hk hk'
        rcases Nat.lt_or_ge k (cg + 1) with hlt | hge
        · exact hup k hk (by omega)
        · have : k = cg + 1 := by omega
          rw [this]; exact h
      · rintro ⟨hj, hq, hup⟩
        have hj' : j ≤ cg := by
          rcases Nat.lt_or_ge j (cg + 1) with hlt | hge
          · omega
          · have : j = cg + 1 := by omega
            rw [this] at hq; rw [hq] at h; cases h
        exact ⟨hj', hq, fun k hk hk' => hup k hk (by omega)⟩
    · rw [findGenAux_succ_pos h]
      constructor
      · intro hj
        injection hj with hj; subst hj
        exact ⟨le_refl _, h, fun k hk hk' => by omega⟩
      · rintro ⟨hj, hq, hup⟩
        rcases Nat.lt_or_ge j (cg + 1) with hlt | hge
        · have := hup (cg + 1) hlt (le_refl _)
          rw [this] at h; cases h
        · have : j = cg + 1 := by omega
          rw [this]

/-- The countdown loop returns `none` exactly when no position up to `cg`
qualifies. -/
theorem findGenAux_eq_none_iff (gens : List generation) (rev : Int) (cg : Nat) :
    findGenAux gens rev cg = none ↔ ∀ k, k ≤ cg → genQual gens rev k = false := by
  induction cg with
  | zero =>
    cases h : genQual gens rev 0
    · rw [findGenAux_zero_neg h]
      constructor
      · intro _ k hk
        interval_cases k
        exact h
      · intro _; rfl
    · rw [findGenAux_zero_pos h]
      constructor
      · intro hc; cases hc
      · intro hall
        have := hall 0 (le_refl 0)
        rw [h] at this; cases this
  | succ cg ih =>
    cases h : genQual gens rev (cg + 1)
    · rw [findGenAux_succ_neg h, ih]
      constructor
      · intro hall k hk
        rcases Nat.lt_or_ge k (cg + 1) with hlt | hge
        · exact hall k (by omega)
        · have : k = cg + 1 := by omega
          rw [this]; exact h
      · intro hall k hk
        exact hall k (by omega)
    · rw [findGenAux_succ_pos h]
      constructor
      · intro hc; cases hc
      · intro hall
        have := hall (cg + 1) (le_refl _)
        rw [h] at this; cases this

/-- The search `findGeneration` returns `some j` exactly when `j` is the largest
qualifying position of the generation list: the first non-empty generation
with earliest `main <= rev` found when scanning newest-to-oldest. -/
theorem findGeneration_eq_some_iff (ki : keyIndex) (rev : Int) (j : Nat) :
    ki.findGeneration rev = some j ↔
      genQual ki.generations rev j = true ∧
        ∀ k, j < k → genQual ki.generations rev k = false := by
  rw [keyIndex.findGeneration, findGenAux_eq_some_iff]
  constructor
  · rintro ⟨hj, hq, hup⟩
    refine ⟨hq, fun k hk => ?_⟩
    rcases Nat.lt_or_ge k ki.generations.length with hlt | hge
    · exact hup k hk (by omega)
    · exact genQual_false_of_len hge
  · rintro ⟨hq, hup⟩
    have hlt := genQual_lt_length hq
    exact ⟨by omega, hq, fun k hk _ => hup k hk⟩

/-- The search `findGeneration` returns `nil` exactly when no position qualifies. -/
theorem findGeneration_eq_none_iff (ki : keyIndex) (rev : Int) :
    ki.findGeneration rev = none ↔
      ∀ k, genQual ki.generations rev k = false := by
  rw [keyIndex.findGeneration, findGenAux_eq_none_iff]
  constructor
  · intro hall k
    rcases Nat.lt_or_ge k ki.generations.length with hlt | hge
    · exact hall k (by omega)
    · exact genQual_false_of_len hge
  · intro hall k _
    exact hall k

/-- A `keyIndex` with a qualifying generation is not `isEmpty`. -/
theorem isEmpty_false_of_qual {ki : keyIndex} {rev : Int} {j : Nat}
    (h : genQual ki.generations rev j = true) : ki.isEmpty = false := by
  obtain ⟨g, r, rs, hg, hrevs, _⟩ := (genQual_iff _ _ _).mp h
  rcases hgens : ki.generations with _ | ⟨x, xs⟩
  · rw [hgens] at hg; simp at hg
  · rcases xs with _ | ⟨y, ys⟩
    · rw [hgens] at hg
      have hj : j = 0 := by
        have := genQual_lt_length h
        rw [hgens] at this
        simp at this
        omega
      rw [hj, List.getElem?_cons_zero] at hg
      injection hg with hg; subst hg
      simp [keyIndex.isEmpty, hgens, generation.isEmpty, hrevs]
    · simp [keyIndex.isEmpty, hgens]

/-- Reading through a cons followed by a drop. -/
theorem getElem?_cons_drop (x : generation) (gens : List generation) (t k : Nat) :
    (x :: gens.drop t)[k + 1]? = gens[t + k]? := by
  rw [List.getElem?_cons_succ, List.getElem?_drop]

/-- Qualification through a cons followed by a drop. -/
theorem genQual_cons_drop (x : generation) (gens : List generation) (rev : Int) (t k : Nat) :
    genQual (x :: gens.drop t) rev (k + 1) = genQual gens rev (t + k) := by
  rw [genQual, genQual, getElem?_cons_drop]

/-- Qualification through a drop. -/
theorem genQual_drop (gens : List generation) (rev : Int) (t k : Nat) :
    genQual (gens.drop t) rev k = genQual gens rev (t + k) := by
  rw [genQual, genQual, List.getElem?_drop]

/-! ## Unfolding lemmas for get and compact -/

/-- Reading with `get` on an `isEmpty()` index is the `log.Panicf` (`none`). -/
theorem get_none_of_empty {ki : keyIndex} {atRev : Int}
    (h : ki.isEmpty = true) : ki.get atRev = none := by
  simp [keyIndex.get, h]

/-- Reading with `get` returns `ErrReversionNotFound` when no generation qualifies. -/
theorem get_notFound_of_none {ki : keyIndex} {atRev : Int}
    (hne : ki.isEmpty = false) (h : ki.findGeneration atRev = none) :
    ki.get atRev = some .notFound := by
  simp [keyIndex.get, hne, h]

/-- Reading with `get` returns the reversion at the walk's stop position of the found
generation. -/
theorem get_found_of {ki : keyIndex} {atRev : Int} {gi n : Nat} {g : generation} {r : reversion}
    (hne : ki.isEmpty = false)
    (hfind : ki.findGeneration atRev = some gi)
    (hg : ki.generations[gi]? = some g)
    (hwalk : walkIdx (fun rv => decide (atRev < rv.main)) g.revs = some n)
    (hr : g.revs[n]? = some r) :
    ki.get atRev = some (.found r) := by
  have hgne : g.isEmpty = false := by
    rw [generation.isEmpty]
    exact List.isEmpty_eq_false.mpr (List.ne_nil_of_mem (mem_of_getElem?_some hr))
  simp [keyIndex.get, hne, hfind, hg, hgne, walk_eq_walkIdx, hwalk, hr]

/-- Running `compact` on an `isEmpty()` index is the `log.Panic` (`none`). -/
theorem compact_none_of_empty {ki : keyIndex} {atRev : Int} {a : Finset reversion}
    (h : ki.isEmpty = true) : ki.compact atRev a = none := by
  simp [keyIndex.compact, h]

/-- A successful `compact` implies the index was not `isEmpty()`. -/
theorem isEmpty_false_of_compact_some {ki ki' : keyIndex} {atRev : Int}
    {a a' : Finset reversion} (h : ki.compact atRev a = some (ki', a')) :
    ki.isEmpty = false := by
  cases hem : ki.isEmpty
  · rfl
  · rw [compact_none_of_empty hem] at h; cases h

/-- Running `compact` is a no-op when no generation qualifies. -/
theorem compact_of_findGen_none {ki : keyIndex} {atRev : Int} {a : Finset reversion}
    (hne : ki.isEmpty = false) (h : ki.findGeneration atRev = none) :
    ki.compact atRev a = some (ki, a) := by
  simp [keyIndex.compact, hne, h]

/-- Running `compact` in the keep case: the boundary reversion `b` at position `n`
is added to `available`, the found generation is trimmed to start at the
boundary, all older generations are dropped, and (because the
one-survivor condition fails) the trimmed generation survives. -/
theorem compact_of_keep {ki : keyIndex} {atRev : Int} {a : Finset reversion}
    {gi n : Nat} {g : generation} {b : reversion}
    (hne : ki.isEmpty = false)
    (hfind : ki.findGeneration atRev = some gi)
    (hg : ki.generations[gi]? = some g)
    (hwalk : walkIdx (fun rv => decide (atRev < rv.main)) g.revs = some n)
    (hb : g.revs[n]? = some b)
    (hcond : ¬((g.revs.drop n).length = 1 ∧ gi ≠ ki.generations.length - 1)) :
    ki.compact atRev a =
      some ({ ki with generations :=
                { g with revs := g.revs.drop n } :: ki.generations.drop (gi + 1) },
            insert b a) := by
  have hgne : g.isEmpty = false := by
    rw [generation.isEmpty]
    exact List.isEmpty_eq_false.mpr (List.ne_nil_of_mem (mem_of_getElem?_some hb))
  simp [keyIndex.compact, hne, hfind, hg, hgne, walk_eq_walkIdx, hwalk, hb, hcond]
  intro h1
  by_contra h2
  exact hcond ⟨by simpa [List.length_drop] using h1, h2⟩

/-- Running `compact` in the drop case: the trimmed generation would hold exactly
one reversion and is not the last generation, so that reversion is removed
from `available` again and the generation is dropped together with all
older ones. -/
theorem compact_of_drop {ki : keyIndex} {atRev : Int} {a : Finset reversion}
    {gi n : Nat} {g : generation} {b : reversion}
    (hne : ki.isEmpty = false)
    (hfind : ki.findGeneration atRev = some gi)
    (hg : ki.generations[gi]? = some g)
    (hwalk : walkIdx (fun rv => decide (atRev < rv.main)) g.revs = some n)
    (hb : g.revs[n]? = some b)
    (hcond : (g.revs.drop n).length = 1 ∧ gi ≠ ki.generations.length - 1) :
    ki.compact atRev a =
      some ({ ki with generations := ki.generations.drop (gi + 1) },
            (insert b a).erase b) := by
  have hgne : g.isEmpty = false := by
    rw [generation.isEmpty]
    exact List.isEmpty_eq_false.mpr (List.ne_nil_of_mem (mem_of_getElem?_some hb))
  have hb0 : (g.revs.drop n)[0]? = some b := by
    rw [List.getElem?_drop]
    simpa using hb
  simp [keyIndex.compact, hne, hfind, hg, hgne, walk_eq_walkIdx, hwalk, hb, hcond, hb0]

/-- A generation whose earliest reversion has `main <= atRev` always gives
the walk a stop position: the boundary reversion, the newest one with
`main <= atRev`; everything newer is strictly above `atRev`. -/
theorem exists_walk_boundary (atRev : Int) (g : generation) (r : reversion)
    (rs : List reversion) (hrevs : g.revs = r :: rs) (hle : r.main ≤ atRev) :
    ∃ n b, walkIdx (fun rv => decide (atRev < rv.main)) g.revs = some n ∧
      g.revs[n]? = some b ∧ b.main ≤ atRev ∧
      ∀ m r', n < m → g.revs[m]? = some r' → atRev < r'.main := by
  rcases hw : walkIdx (fun rv => decide (atRev < rv.main)) g.revs with _ | n
  · exfalso
    have hmem : r ∈ g.revs := by rw [hrevs]; exact List.mem_cons_self r rs
    have := (walkIdx_eq_none _ _).mp hw r hmem
    rw [decide_eq_true_eq] at this
    omega
  · obtain ⟨⟨b, hb, hfb⟩, hup⟩ := (walkIdx_eq_some_iff _ _ n).mp hw
    refine ⟨n, b, rfl, hb, ?_, ?_⟩
    · have hnlt : ¬(atRev < b.main) := by simpa using hfb
      omega
    · intro m r' hm hr'
      have := hup m r' hm hr'
      simpa using this

/-- Full case analysis of a `compact` call on a non-empty index: either no
generation qualifies and nothing changes, or the boundary reversion `b` of
the found generation is located and trimming happens, with the
one-survivor-tombstone case dropping the whole generation. -/
theorem compact_cases (ki : keyIndex) (atRev : Int) (a : Finset reversion)
    (hne : ki.isEmpty = false) :
    (ki.findGeneration atRev = none ∧ ki.compact atRev a = some (ki, a)) ∨
    ∃ gi g n b,
      ki.findGeneration atRev = some gi ∧
      ki.generations[gi]? = some g ∧
      walkIdx (fun rv => decide (atRev < rv.main)) g.revs = some n ∧
      g.revs[n]? = some b ∧ b.main ≤ atRev ∧
      (∀ m r', n < m → g.revs[m]? = some r' → atRev < r'.main) ∧
      ((((g.revs.drop n).length = 1 ∧ gi ≠ ki.generations.length - 1) ∧
          ki.compact atRev a =
            some ({ ki with generations := ki.generations.drop (gi + 1) },
                  (insert b a).erase b)) ∨
        (¬((g.revs.drop n).length = 1 ∧ gi ≠ ki.generations.length - 1) ∧
          ki.compact atRev a =
            some ({ ki with generations :=
                      { g with revs := g.revs.drop n } :: ki.generations.drop (gi + 1) },
                  insert b a))) := by
  rcases hfind : ki.findGeneration atRev with _ | gi
  · exact Or.inl ⟨rfl, compact_of_findGen_none hne hfind⟩
  · obtain ⟨hq, hup⟩ := (findGeneration_eq_some_iff ki atRev gi).mp hfind
    obtain ⟨g, r, rs, hg, hrevs, hle⟩ := (genQual_iff _ _ _).mp hq
    obtain ⟨n, b, hwalk, hb, hble, hnewest⟩ := exists_walk_boundary atRev g r rs hrevs hle
    refine Or.inr ⟨gi, g, n, b, rfl, hg, hwalk, hb, hble, hnewest, ?_⟩
    by_cases hcond : (g.revs.drop n).length = 1 ∧ gi ≠ ki.generations.length - 1
    · exact Or.inl ⟨hcond, compact_of_drop hne hfind hg hwalk hb hcond⟩
    · exact Or.inr ⟨hcond, compact_of_keep hne hfind hg hwalk hb hcond⟩

/-- What a successful `compact(atRev)` does to a later read `get(r)` with
`r >= atRev`: the result is unchanged, unless the pre-compaction result
was the boundary reversion `b` (with `main <= atRev`) of the generation
that the one-survivor case dropped entirely; then the read afterwards is
`ErrReversionNotFound`, or the whole index has become empty and `get`
panics. -/
theorem get_preserved (ki ki' : keyIndex) (atRev r : Int) (a a' : Finset reversion)
    (hr : atRev ≤ r)
    (hc : ki.compact atRev a = some (ki', a')) :
    ki'.get r = ki.get r ∨
      ∃ b, ki.get r = some (.found b) ∧ b.main ≤ atRev ∧
        (ki'.get r = some .notFound ∨ ki'.get r = none) := by
  have hne : ki.isEmpty = false := isEmpty_false_of_compact_some hc
  rcases compact_cases ki atRev a hne with ⟨hfind, heq⟩ |
    ⟨gi, g, n, b, hfind, hg, hwalk, hb, hble, hnewest, hsub⟩
  · rw [heq] at hc
    simp only [Option.some.injEq, Prod.mk.injEq] at hc
    obtain ⟨hki, ha⟩ := hc
    subst hki
    exact Or.inl rfl
  · obtain ⟨hq_at, hup_at⟩ := (findGeneration_eq_some_iff ki atRev gi).mp hfind
    have hq_r0 : genQual ki.generations r gi = true := genQual_mono hq_at hr
    rcases hjr : ki.findGeneration r with _ | j
    · have := (findGeneration_eq_none_iff ki r).mp hjr gi
      rw [this] at hq_r0; cases hq_r0
    obtain ⟨hqj, hupj⟩ := (findGeneration_eq_some_iff ki r j).mp hjr
    have hgij : gi ≤ j := by
      by_contra hlt
      push_neg at hlt
      have := hupj gi hlt
      rw [this] at hq_r0; cases hq_r0
    obtain ⟨gj, rj, rsj, hgj, hrevsj, hlej⟩ := (genQual_iff _ _ _).mp hqj
    obtain ⟨m, c, hwalkj, hcj, hcle, hupm⟩ := exists_walk_boundary r gj rj rsj hrevsj hlej
    have hget_before : ki.get r = some (.found c) := get_found_of hne hjr hgj hwalkj hcj
    rcases hsub with ⟨hcond, heq⟩ | ⟨hcond, heq⟩
    · -- drop case: the found generation is removed entirely
      rw [heq] at hc
      simp only [Option.some.injEq, Prod.mk.injEq] at hc
      obtain ⟨hki, ha⟩ := hc
      have hgen' : ki'.generations = ki.generations.drop (gi + 1) := by
        rw [← hki]
      rcases Nat.eq_or_lt_of_le hgij with rfl | hltj
      · -- the read's generation is the dropped one: before-result is b
        rw [hg] at hgj
        injection hgj with hgj
        subst hgj
        have hn_len : g.revs.length = n + 1 := by
          obtain ⟨hnlt, _⟩ := List.getElem?_eq_some.mp hb
          have h1 := hcond.1
          rw [List.length_drop] at h1
          omega
        have hmlt : m < g.revs.length := (List.getElem?_eq_some.mp hcj).1
        have hmn : m = n := by
          by_contra hne2
          rcases Nat.lt_or_ge m n with hlt2 | hge2
          · have := hupm n b hlt2 hb
            omega
          · omega
        subst hmn
        rw [hb] at hcj
        injection hcj with hcj
        subst hcj
        have hfn' : ki'.findGeneration r = none := by
          rw [findGeneration_eq_none_iff]
          intro k
          rw [hgen', genQual_drop]
          exact hupj _ (by omega)
        refine Or.inr ⟨b, hget_before, hble, ?_⟩
        cases hem' : ki'.isEmpty
        · exact Or.inl (get_notFound_of_none hem' hfn')
        · exact Or.inr (get_none_of_empty hem')
      · -- the read's generation is newer than the dropped one
        obtain ⟨d, rfl⟩ : ∃ d, j = gi + 1 + d := ⟨j - (gi + 1), by omega⟩
        have hqd : genQual ki'.generations r d = true := by
          rw [hgen', genQual_drop]; exact hqj
        have hupd : ∀ k, d < k → genQual ki'.generations r k = false := by
          intro k hk
          rw [hgen', genQual_drop]
          exact hupj _ (by omega)
        have hfind' : ki'.findGeneration r = some d :=
          (findGeneration_eq_some_iff ki' r d).mpr ⟨hqd, hupd⟩
        have hgj' : ki'.generations[d]? = some gj := by
          rw [hgen', List.getElem?_drop]; exact hgj
        have hne' : ki'.isEmpty = false := isEmpty_false_of_qual hqd
        exact Or.inl (by
          rw [hget_before, get_found_of hne' hfind' hgj' hwalkj hcj])
    · -- keep case: the trimmed generation survives in front
      rw [heq] at hc
      simp only [Option.some.injEq, Prod.mk.injEq] at hc
      obtain ⟨hki, ha⟩ := hc
      have hgen' : ki'.generations =
          { g with revs := g.revs.drop n } :: ki.generations.drop (gi + 1) := by
        rw [← hki]
      rcases Nat.eq_or_lt_of_le hgij with rfl | hltj
      · -- the read's generation is the trimmed one
        rw [hg] at hgj
        injection hgj with hgj
        subst hgj
        obtain ⟨hnlt, hgetn⟩ := List.getElem?_eq_some.mp hb
        have hdropcons : g.revs.drop n = b :: g.revs.drop (n + 1) := by
          rw [List.drop_eq_getElem_cons hnlt, hgetn]
        have hnm : n ≤ m := by
          by_contra hlt2
          push_neg at hlt2
          have := hupm n b hlt2 hb
          omega
        have hq0 : genQual ki'.generations r 0 = true := by
          rw [hgen']
          refine (genQual_iff _ _ _).mpr
            ⟨{ g with revs := g.revs.drop n }, b, g.revs.drop (n + 1),
             List.getElem?_cons_zero, hdropcons, by omega⟩
        have hup0 : ∀ k, 0 < k → genQual ki'.generations r k = false := by
          intro k hk
          rcases k with _ | k'
          · omega
          · rw [hgen', genQual_cons_drop]
            exact hupj _ (by omega)
        have hfind0 : ki'.findGeneration r = some 0 :=
          (findGeneration_eq_some_iff ki' r 0).mpr ⟨hq0, hup0⟩
        have hg0' : ki'.generations[0]? = some { g with revs := g.revs.drop n } := by
          rw [hgen']
          exact List.getElem?_cons_zero
        have hc' : ({ g with revs := g.revs.drop n } : generation).revs[m - n]? = some c := by
          show (g.revs.drop n)[m - n]? = some c
          rw [List.getElem?_drop]
          have harith : n + (m - n) = m := by omega
          rw [harith]
          exact hcj
        have hwalk' : walkIdx (fun rv => decide (r < rv.main))
            ({ g with revs := g.revs.drop n } : generation).revs = some (m - n) := by
          refine (walkIdx_eq_some_iff _ _ _).mpr ⟨⟨c, hc', ?_⟩, ?_⟩
          · rw [decide_eq_false_iff_not]
            omega
          · intro k r' hk hr'
            have hk' : (g.revs.drop n)[k]? = some r' := hr'
            rw [List.getElem?_drop] at hk'
            simp only [decide_eq_true_eq]
            exact hupm (n + k) r' (by omega) hk'
        have hne' : ki'.isEmpty = false := isEmpty_false_of_qual hq0
        exact Or.inl (by
          rw [hget_before, get_found_of hne' hfind0 hg0' hwalk' hc'])
      · -- the read's generation is newer than the trimmed one
        obtain ⟨d, rfl⟩ : ∃ d, j = gi + 1 + d := ⟨j - (gi + 1), by omega⟩
        have hqd : genQual ki'.generations r (d + 1) = true := by
          rw [hgen', genQual_cons_drop]; exact hqj
        have hupd : ∀ k, d + 1 < k → genQual ki'.generations r k = false := by
          intro k hk
          rcases k with _ | k'
          · omega
          · rw [hgen', genQual_cons_drop]
            exact hupj _ (by omega)
        have hfind' : ki'.findGeneration r = some (d + 1) :=
          (findGeneration_eq_some_iff ki' r (d + 1)).mpr ⟨hqd, hupd⟩
        have hgj' : ki'.generations[d + 1]? = some gj := by
          rw [hgen', getElem?_cons_drop]
          exact hgj
        have hne' : ki'.isEmpty = false := isEmpty_false_of_qual hqd
        exact Or.inl (by
          rw [hget_before, get_found_of hne' hfind' hgj' hwalkj hcj])

/-- Once `compact(atRev)` has run and left a non-empty index, running
`compact` again with the same `atRev` finds either the already-minimal
boundary generation or no qualifying generation, and returns the index
unchanged. -/
theorem compact_idem (ki ki' : keyIndex) (atRev : Int) (a a' : Finset reversion)
    (hc : ki.compact atRev a = some (ki', a'))
    (hne' : ki'.isEmpty = false) :
    ∃ a2, ki'.compact atRev a' = some (ki', a2) := by
  have hne : ki.isEmpty = false := isEmpty_false_of_compact_some hc
  obtain ⟨kk, kr, kg⟩ := ki'
  rcases compact_cases ki atRev a hne with ⟨hfind, heq⟩ |
    ⟨gi, g, n, b, hfind, hg, hwalk, hb, hble, hnewest, hsub⟩
  · rw [heq] at hc
    simp only [Option.some.injEq, Prod.mk.injEq] at hc
    obtain ⟨hki, ha⟩ := hc
    subst ha
    subst hki
    exact ⟨a, heq⟩
  · obtain ⟨hq_at, hup_at⟩ := (findGeneration_eq_some_iff ki atRev gi).mp hfind
    rcases hsub with ⟨hcond, heq⟩ | ⟨hcond, heq⟩
    · -- drop case: afterwards nothing at all qualifies at atRev
      rw [heq] at hc
      simp only [Option.some.injEq, Prod.mk.injEq, keyIndex.mk.injEq] at hc
      obtain ⟨⟨hk1, hk2, hk3⟩, hk4⟩ := hc
      subst hk1
      subst hk2
      subst hk3
      subst hk4
      have hfn' : (⟨ki.key, ki.rev, ki.generations.drop (gi + 1)⟩ : keyIndex).findGeneration
          atRev = none := by
        rw [findGeneration_eq_none_iff]
        intro k
        show genQual (ki.generations.drop (gi + 1)) atRev k = false
        rw [genQual_drop]
        exact hup_at _ (by omega)
      exact ⟨_, compact_of_findGen_none hne' hfn'⟩
    · -- keep case: the boundary generation is already minimal
      rw [heq] at hc
      simp only [Option.some.injEq, Prod.mk.injEq, keyIndex.mk.injEq] at hc
      obtain ⟨⟨hk1, hk2, hk3⟩, hk4⟩ := hc
      subst hk1
      subst hk2
      subst hk3
      subst hk4
      obtain ⟨hnlt, hgetn⟩ := List.getElem?_eq_some.mp hb
      have hdropcons : g.revs.drop n = b :: g.revs.drop (n + 1) := by
        rw [List.drop_eq_getElem_cons hnlt, hgetn]
      have hq0 : genQual
          ({ g with revs := g.revs.drop n } :: ki.generations.drop (gi + 1)) atRev 0 = true :=
        (genQual_iff _ _ _).mpr
          ⟨{ g with revs := g.revs.drop n }, b, g.revs.drop (n + 1),
           List.getElem?_cons_zero, hdropcons, hble⟩
      have hup0 : ∀ k, 0 < k → genQual
          ({ g with revs := g.revs.drop n } :: ki.generations.drop (gi + 1)) atRev k = false := by
        intro k hk
        rcases k with _ | k'
        · omega
        · rw [genQual_cons_drop]
          exact hup_at _ (by omega)
      have hfind0 : keyIndex.findGeneration
          ⟨ki.key, ki.rev, { g with revs := g.revs.drop n } :: ki.generations.drop (gi + 1)⟩
          atRev = some 0 :=
        (findGeneration_eq_some_iff
          ⟨ki.key, ki.rev, { g with revs := g.revs.drop n } :: ki.generations.drop (gi + 1)⟩
          atRev 0).mpr ⟨hq0, hup0⟩
      have hg0' : (keyIndex.generations
          ⟨ki.key, ki.rev, { g with revs := g.revs.drop n } :: ki.generations.drop (gi + 1)⟩)[0]? =
            some { g with revs := g.revs.drop n } :=
        List.getElem?_cons_zero
      have hb0' : ({ g with revs := g.revs.drop n } : generation).revs[0]? = some b := by
        show (g.revs.drop n)[0]? = some b
        rw [List.getElem?_drop]
        simpa using hb
      have hwalk0 : walkIdx (fun rv => decide (atRev < rv.main))
          ({ g with revs := g.revs.drop n } : generation).revs = some 0 := by
        refine (walkIdx_eq_some_iff _ _ _).mpr ⟨⟨b, hb0', ?_⟩, ?_⟩
        · rw [decide_eq_false_iff_not]
          omega
        · intro k r' hk hr'
          have hk' : (g.revs.drop n)[k]? = some r' := hr'
          rw [List.getElem?_drop] at hk'
          simp only [decide_eq_true_eq]
          exact hnewest (n + k) r' (by omega) hk'
      have hglen : gi < ki.generations.length := (List.getElem?_eq_some.mp hg).1
      have hcond' : ¬((({ g with revs := g.revs.drop n } : generation).revs.drop 0).length = 1 ∧
          (0 : Nat) ≠ (keyIndex.generations
            ⟨ki.key, ki.rev,
              { g with revs := g.revs.drop n } :: ki.generations.drop (gi + 1)⟩).length - 1) := by
        rintro ⟨hl1, hl2⟩
        have hl1' : (g.revs.drop n).length = 1 := hl1
        have hgilen : gi = ki.generations.length - 1 := by
          by_contra hgc
          exact hcond ⟨hl1', hgc⟩
        apply hl2
        show (0 : Nat) =
          ({ g with revs := g.revs.drop n } :: ki.generations.drop (gi + 1)).length - 1
        rw [List.length_cons, List.length_drop]
        omega
      have h2 := @compact_of_keep
        ⟨ki.key, ki.rev, { g with revs := g.revs.drop n } :: ki.generations.drop (gi + 1)⟩
        atRev (insert b a) 0 0 { g with revs := g.revs.drop n } b
        hne' hfind0 hg0' hwalk0 hb0' hcond'
      exact ⟨_, h2⟩

/-! ## put / tombstone facts -/

/-- Appending into the last generation of a non-empty list keeps the list
non-empty and leaves a last generation whose revision list is non-empty. -/
theorem appendToLast_spec (rv : reversion) :
    ∀ gs : List generation, gs ≠ [] →
      1 ≤ (appendToLast rv gs).length ∧
        ∃ g0, (appendToLast rv gs).getLast? = some g0 ∧ g0.revs ≠ []
  | [], h => absurd rfl h
  | [g], _ =>
    ⟨by simp [appendToLast], ⟨{ ver := g.ver + 1, revs := g.revs ++ [rv] }, rfl, by simp⟩⟩
  | g :: g2 :: gs, _ => by
    obtain ⟨hlen, g0, hlast, hrevs⟩ := appendToLast_spec rv (g2 :: gs) (by simp)
    refine ⟨by simp [appendToLast], ⟨g0, ?_, hrevs⟩⟩
    show (g :: appendToLast rv (g2 :: gs)).getLast? = some g0
    rcases hsh : appendToLast rv (g2 :: gs) with _ | ⟨x, xs⟩
    · rw [hsh] at hlen; cases hlen
    · rw [List.getLast?_cons_cons, ← hsh]
      exact hlast

/-- The last element of a `keyIndex` whose last generation is non-empty
shows the index is not `isEmpty()`. -/
theorem isEmpty_false_of_getLast {ki : keyIndex} {g0 : generation}
    (h : ki.generations.getLast? = some g0) (hrevs : g0.revs ≠ []) :
    ki.isEmpty = false := by
  rcases hgens : ki.generations with _ | ⟨x, xs⟩
  · rw [hgens] at h; cases h
  · rcases xs with _ | ⟨y, ys⟩
    · rw [hgens, List.getLast?_singleton] at h
      injection h with h
      subst h
      simp [keyIndex.isEmpty, hgens, generation.isEmpty, hrevs]
    · simp [keyIndex.isEmpty, hgens]

/-- An index with at least two generations is never `isEmpty()`. -/
theorem isEmpty_false_of_two {ki : keyIndex}
    (h : 2 ≤ ki.generations.length) : ki.isEmpty = false := by
  rcases hgens : ki.generations with _ | ⟨x, xs⟩
  · rw [hgens] at h; cases h
  · rcases xs with _ | ⟨y, ys⟩
    · rw [hgens] at h
      simp at h
    · simp [keyIndex.isEmpty, hgens]

/-- What a successful `put` produces: the key is unchanged, `rev` becomes
the supplied reversion, at least one generation exists, and the last
generation has a non-empty revision list. -/
theorem put_some {ki ki2 : keyIndex} {rev subrev : Int}
    (h : ki.put rev subrev = some ki2) :
    ki2.key = ki.key ∧ ki2.rev = rev ∧ 1 ≤ ki2.generations.length ∧
      ∃ g0, ki2.generations.getLast? = some g0 ∧ g0.revs ≠ [] := by
  rw [keyIndex.put] at h
  by_cases hlt : rev < ki.rev
  · rw [if_pos hlt] at h; cases h
  · rw [if_neg hlt] at h
    injection h with h
    subst h
    refine ⟨rfl, rfl, ?_⟩
    cases hgen : ki.generations.isEmpty
    · have hne : ki.generations ≠ [] := by
        intro hc
        rw [hc] at hgen
        cases hgen
      obtain ⟨h1, g0, h2, h3⟩ := appendToLast_spec { main := rev, sub := subrev } ki.generations hne
      simp only [hgen]
      exact ⟨h1, g0, h2, h3⟩
    · obtain ⟨h1, g0, h2, h3⟩ := appendToLast_spec { main := rev, sub := subrev }
        (ki.generations ++ [{ ver := 0, revs := [] }]) (by simp)
      simp only [hgen]
      exact ⟨h1, g0, h2, h3⟩

/-- A successful `put` never regressed: the supplied reversion was at
least the old `ki.rev`. -/
theorem put_some_le {ki ki2 : keyIndex} {rev subrev : Int}
    (h : ki.put rev subrev = some ki2) : ki.rev ≤ rev := by
  rw [keyIndex.put] at h
  by_cases hlt : rev < ki.rev
  · rw [if_pos hlt] at h; cases h
  · omega

/-- What a successful `tombstone` produces: a `put` result with one more,
empty, generation at the end. -/
theorem tombstone_some {ki ki2 : keyIndex} {rev subrev : Int}
    (h : ki.tombstone rev subrev = some ki2) :
    ∃ ki1, ki.put rev subrev = some ki1 ∧
      ki2 = { ki1 with generations := ki1.generations ++ [{ ver := 0, revs := [] }] } := by
  rw [keyIndex.tombstone] at h
  by_cases hem : ki.isEmpty
  · rw [if_pos hem] at h; cases h
  · rw [if_neg hem] at h
    rcases hput : ki.put rev subrev with _ | ki1
    · rw [hput] at h; cases h
    · rw [hput] at h
      injection h with h
      exact ⟨ki1, rfl, h.symm⟩

/-! ## Operation sequences -/

/-- A successful operation sets `rev` to the supplied `main` and never
regresses. -/
theorem applyOp_rev {ki ki2 : keyIndex} {o : keyOp} (h : applyOp ki o = some ki2) :
    ki2.rev = o.main ∧ ki.rev ≤ o.main := by
  cases o with
  | putOp r s =>
    have hput : ki.put r s = some ki2 := by simpa [applyOp] using h
    obtain ⟨_, hrev, _⟩ := put_some hput
    exact ⟨hrev, put_some_le hput⟩
  | tombOp r s =>
    have htomb : ki.tombstone r s = some ki2 := by simpa [applyOp] using h
    obtain ⟨ki1, hput, hk2⟩ := tombstone_some htomb
    obtain ⟨_, hrev, _⟩ := put_some hput
    subst hk2
    exact ⟨hrev, put_some_le hput⟩

/-- Over a successful operation sequence, `rev` never decreases, bounds
every supplied `main` from above, and (for a non-empty sequence) is one of
the supplied `main` values. -/
theorem applyOps_rev_spec :
    ∀ (ops : List keyOp) (ki0 ki : keyIndex), applyOps ki0 ops = some ki →
      ki0.rev ≤ ki.rev ∧ (∀ o ∈ ops, keyOp.main o ≤ ki.rev) ∧
        (ops ≠ [] → ki.rev ∈ ops.map keyOp.main)
  | [], ki0, ki => by
    intro h
    injection h with h
    subst h
    exact ⟨le_refl _, by simp, fun hc => absurd rfl hc⟩
  | o :: os, ki0, ki => by
    intro h
    rw [applyOps] at h
    rcases hstep : applyOp ki0 o with _ | ki1
    · rw [hstep] at h; cases h
    · rw [hstep] at h
      obtain ⟨hrev1, hle1⟩ := applyOp_rev hstep
      obtain ⟨hle2, hall, hmem⟩ := applyOps_rev_spec os ki1 ki h
      refine ⟨by omega, ?_, ?_⟩
      · intro o2 ho2
        rcases List.mem_cons.mp ho2 with rfl | ho2
        · omega
        · exact hall o2 ho2
      · intro _
        rcases hos : os with _ | ⟨o3, os2⟩
        · rw [hos] at h
          injection h with h
          subst h
          simp [hrev1]
        · have hm := hmem (by rw [hos]; simp)
          rw [hos] at hm
          simp only [List.map_cons, List.mem_cons] at hm ⊢
          right
          exact hm

/-! ## Claims -/

/-- C1 (counterexample): in the end-to-end scenario put(1,0); put(2,0);
tombstone(3,0); put(4,0); tombstone(5,0) on a fresh index, `get(6)` does
NOT return NotFound: it returns the tombstone reversion (5,0), because
this `findGeneration` has no check that skips a closed generation whose
tombstone is at or below the queried reversion. -/
theorem claim_C1_counterexample :
    applyOps (freshKi fooKey) fooOps = some fooIndex ∧
    fooIndex.get 6 = some (.found ⟨5, 0⟩) ∧
    fooIndex.get 6 ≠ some getResult.notFound := by decide

/-- C1 (amended): in the end-to-end scenario, `get(2)` returns (2,0) and
`get(3)` returns (3,0) as claimed, but `get(6)` returns the tombstone
reversion (5,0) rather than NotFound. -/
theorem claim_C1_amended :
    applyOps (freshKi fooKey) fooOps = some fooIndex ∧
    fooIndex.get 2 = some (.found ⟨2, 0⟩) ∧
    fooIndex.get 3 = some (.found ⟨3, 0⟩) ∧
    fooIndex.get 6 = some (.found ⟨5, 0⟩) := by decide

/-- C2: on a non-empty index whose `findGeneration(atRev)` finds the
generation at position `gi`, whose newest reversion with `main <= atRev`
is `b` at position `n`: `compact(atRev, available)` inserts `b` into
`available` and trims the generation's revisions to position `n` onwards
(the boundary and everything newer); if the trimmed generation would hold
exactly one reversion and is not the last generation, that reversion is
removed from `available` again and the generation is dropped together
with all older generations. -/
theorem claim_C2 (ki : keyIndex) (atRev : Int) (a : Finset reversion)
    (gi n : Nat) (g : generation) (b : reversion)
    (hne : ki.isEmpty = false)
    (hfind : ki.findGeneration atRev = some gi)
    (hg : ki.generations[gi]? = some g)
    (hb : g.revs[n]? = some b)
    (hble : b.main ≤ atRev)
    (hnewest : ∀ m r', n < m → g.revs[m]? = some r' → atRev < r'.main) :
    (¬((g.revs.drop n).length = 1 ∧ gi ≠ ki.generations.length - 1) →
      ki.compact atRev a =
        some ({ ki with generations :=
                  { g with revs := g.revs.drop n } :: ki.generations.drop (gi + 1) },
              insert b a)) ∧
    (((g.revs.drop n).length = 1 ∧ gi ≠ ki.generations.length - 1) →
      ki.compact atRev a =
        some ({ ki with generations := ki.generations.drop (gi + 1) },
              (insert b a).erase b)) := by
  have hwalk : walkIdx (fun rv => decide (atRev < rv.main)) g.revs = some n := by
    refine (walkIdx_eq_some_iff _ _ _).mpr ⟨⟨b, hb, ?_⟩, ?_⟩
    · rw [decide_eq_false_iff_not]
      omega
    · intro m r' hm hmr
      simp only [decide_eq_true_eq]
      exact hnewest m r' hm hmr
  constructor
  · intro hcond
    exact compact_of_keep hne hfind hg hwalk hb hcond
  · intro hcond
    exact compact_of_drop hne hfind hg hwalk hb hcond

/-- C2 (witness): `compact(2)` on the worked example, via `claim_C2` at
the boundary (2,0) of the oldest generation. -/
theorem claim_C2_witness :
    fooIndex.compact 2 ∅ = some (fooIndex2, fooAvail2) := by
  have hnw : ∀ (m : Nat) (r' : reversion), 1 < m →
      (([⟨1, 0⟩, ⟨2, 0⟩, ⟨3, 0⟩] : List reversion))[m]? = some r' → (2 : Int) < r'.main := by
    intro m r' hm hmr
    rcases m with _ | _ | _ | m
    · omega
    · omega
    · simp at hmr
      rw [← hmr]
      decide
    · simp at hmr
  have h := (claim_C2 fooIndex 2 ∅ 0 1 ⟨3, [⟨1, 0⟩, ⟨2, 0⟩, ⟨3, 0⟩]⟩ ⟨2, 0⟩
    (by decide) (by decide) (by decide) (by decide) (by decide) hnw).1 (by decide)
  rw [h]
  decide

/-- C3 (counterexample): on the index built by put(1,0); put(2,0);
tombstone(3,0); put(4,0), compacting at 3 changes the result of `get(3)`
(with `3 >= 3`): before the compaction it returns the tombstone (3,0),
afterwards NotFound, because the closed generation ending in that
tombstone is dropped entirely. -/
theorem claim_C3_counterexample :
    applyOps (freshKi fooKey) barOps = some barIndex ∧
    barIndex.compact 3 ∅ = some (barIndexC, ∅) ∧
    barIndex.get 3 = some (.found ⟨3, 0⟩) ∧
    barIndexC.get 3 = some getResult.notFound := by decide

/-- C3 (amended): for an index built by a valid operation sequence, after
`compact(atRev, available)` every `get(r)` with `r >= atRev` returns the
same result as before, except when the pre-compaction result was the
boundary reversion `b` (with `main <= atRev`, the dropped closed
generation's tombstone); in that case the post-compaction `get(r)` is
NotFound, or the index has become empty and `get` is a fatal breach. -/
theorem claim_C3_amended (k : List Nat) (ops : List keyOp) (ki ki' : keyIndex)
    (atRev r : Int) (a a' : Finset reversion)
    (_hbuild : applyOps (freshKi k) ops = some ki)
    (hr : atRev ≤ r)
    (hc : ki.compact atRev a = some (ki', a')) :
    ki'.get r = ki.get r ∨
      ∃ b, ki.get r = some (.found b) ∧ b.main ≤ atRev ∧
        (ki'.get r = some .notFound ∨ ki'.get r = none) :=
  get_preserved ki ki' atRev r a a' hr hc

/-- C3 (witness): the amended preservation at the worked example,
`compact(2)` then `get(2)`. -/
theorem claim_C3_witness :
    fooIndex2.get 2 = fooIndex.get 2 ∨
      ∃ b, fooIndex.get 2 = some (.found b) ∧ b.main ≤ 2 ∧
        (fooIndex2.get 2 = some .notFound ∨ fooIndex2.get 2 = none) :=
  claim_C3_amended fooKey fooOps fooIndex fooIndex2 2 2 ∅ fooAvail2
    (by decide) (by decide) (by decide)

/-- C4 (counterexample): after the section-8 compactions have left the
generation list as a single empty generation, a further `compact(6)` does
not return normally with the list unchanged. -/
theorem claim_C4_counterexample :
    fooIndex.compact 2 ∅ = some (fooIndex2, fooAvail2) ∧
    fooIndex2.compact 4 fooAvail2 = some (fooIndex4, fooAvail4) ∧
    fooIndex4.compact 5 fooAvail4 = some (emptyFoo, fooAvail4) ∧
    emptyFoo.isEmpty = true ∧
    emptyFoo.compact 6 fooAvail4 ≠ some (emptyFoo, fooAvail4) := by decide

/-- C4 (amended): once the scenario's compactions have left `isEmpty()`
true, a further `compact(6)` is the fatal invariant breach (`log.Panic`,
modeled as `none`), not a normal no-op return; the guard fires before any
mutation. -/
theorem claim_C4_amended :
    emptyFoo.isEmpty = true ∧ emptyFoo.compact 6 fooAvail4 = none := by decide

/-- C5 (counterexample): a structurally empty index with no generations at
all does NOT fail loudly: `isEmpty()` is false on it, so `tombstone`
proceeds and mutates the index and `get` proceeds and returns NotFound. -/
theorem claim_C5_counterexample :
    (freshKi fooKey).generations = [] ∧
    (freshKi fooKey).tombstone 5 0 =
      some ⟨fooKey, 5, [⟨1, [⟨5, 0⟩]⟩, ⟨0, []⟩]⟩ ∧
    (freshKi fooKey).get 3 = some getResult.notFound := by decide

/-- C5 (amended): for an index whose generation list is exactly one empty
generation (`isEmpty()` true), `tombstone` and `get` abort immediately
with the fatal invariant breach (`log.Panicf`, modeled as `none`); an
index with no generations at all does not trigger this guard. -/
theorem claim_C5_amended (ki : keyIndex) (rev sub atRev : Int)
    (h : ki.isEmpty = true) :
    ki.tombstone rev sub = none ∧ ki.get atRev = none := by
  constructor
  · rw [keyIndex.tombstone, if_pos h]
  · rw [keyIndex.get, if_pos h]

/-- C5 (witness): the amended breach behavior at a concrete single-empty-
generation index. -/
theorem claim_C5_witness :
    (⟨[], 0, [⟨0, []⟩]⟩ : keyIndex).tombstone 1 0 = none ∧
      (⟨[], 0, [⟨0, []⟩]⟩ : keyIndex).get 7 = none :=
  claim_C5_amended ⟨[], 0, [⟨0, []⟩]⟩ 1 0 7 (by decide)

/-- C6: on a non-empty index, if no position holds a non-empty generation
whose earliest reversion has `main <= atRev`, `get(atRev)` is NotFound;
and if `gi` is the first such position found scanning newest-to-oldest
(no larger position qualifies) and `n` is the position of the newest
reversion of that generation with `main <= atRev` (everything newer is
strictly above `atRev`), `get(atRev)` returns exactly that reversion —
which may be a tombstone. -/
theorem claim_C6 (ki : keyIndex) (atRev : Int) (hne : ki.isEmpty = false) :
    ((∀ j, genQual ki.generations atRev j = false) →
      ki.get atRev = some .notFound) ∧
    (∀ (gi : Nat) (g : generation) (n : Nat) (r : reversion),
      genQual ki.generations atRev gi = true →
      (∀ k, gi < k → genQual ki.generations atRev k = false) →
      ki.generations[gi]? = some g →
      g.revs[n]? = some r →
      r.main ≤ atRev →
      (∀ m r', n < m → g.revs[m]? = some r' → atRev < r'.main) →
      ki.get atRev = some (.found r)) := by
  constructor
  · intro hall
    exact get_notFound_of_none hne ((findGeneration_eq_none_iff ki atRev).mpr hall)
  · intro gi g n r hq hup hg hr hle hnewest
    have hfind : ki.findGeneration atRev = some gi :=
      (findGeneration_eq_some_iff ki atRev gi).mpr ⟨hq, hup⟩
    have hwalk : walkIdx (fun rv => decide (atRev < rv.main)) g.revs = some n := by
      refine (walkIdx_eq_some_iff _ _ _).mpr ⟨⟨r, hr, ?_⟩, ?_⟩
      · rw [decide_eq_false_iff_not]
        omega
      · intro m r' hm hmr
        simp only [decide_eq_true_eq]
        exact hnewest m r' hm hmr
    exact get_found_of hne hfind hg hwalk hr

/-- C6 (witness): the read `get(2)` on the worked example selects the
oldest generation (position 0, the only qualifying one) and inside it the
reversion (2,0) at position 1. -/
theorem claim_C6_witness :
    fooIndex.get 2 = some (.found ⟨2, 0⟩) := by
  have hup : ∀ k, 0 < k → genQual fooIndex.generations 2 k = false := by
    intro k hk
    rcases k with _ | _ | _ | k
    · omega
    · decide
    · decide
    · exact genQual_false_of_len (by simp [fooIndex])
  have hnw : ∀ (m : Nat) (r' : reversion), 1 < m →
      (generation.revs ⟨3, [⟨1, 0⟩, ⟨2, 0⟩, ⟨3, 0⟩]⟩)[m]? = some r' → (2 : Int) < r'.main := by
    intro m r' hm hmr
    rcases m with _ | _ | _ | m
    · omega
    · omega
    · simp at hmr
      rw [← hmr]
      decide
    · simp at hmr
  exact (claim_C6 fooIndex 2 (by decide)).2 0 ⟨3, [⟨1, 0⟩, ⟨2, 0⟩, ⟨3, 0⟩]⟩ 1 ⟨2, 0⟩
    (by decide) hup (by decide) (by decide) (by decide) hnw

/-- C7 (counterexample): compacting may empty the index, after which the
second `compact` with the same boundary is the fatal breach (`log.Panic`,
modeled as `none`) rather than leaving the state as after the first
call. -/
theorem claim_C7_counterexample :
    tombIndex.compact 5 ∅ = some (emptyFoo, ∅) ∧
    emptyFoo.compact 5 ∅ = none := by decide

/-- C7 (amended): whenever `compact(atRev, available)` succeeds and leaves
a non-empty index, running `compact` again with the same `atRev` leaves
the index exactly as after the first call. -/
theorem claim_C7_amended (ki ki' : keyIndex) (atRev : Int) (a a' : Finset reversion)
    (hc : ki.compact atRev a = some (ki', a'))
    (hne' : ki'.isEmpty = false) :
    ∃ a2, ki'.compact atRev a' = some (ki', a2) :=
  compact_idem ki ki' atRev a a' hc hne'

/-- C7 (witness): idempotence after `compact(2)` on the worked example. -/
theorem claim_C7_witness :
    ∃ a2, fooIndex2.compact 2 fooAvail2 = some (fooIndex2, a2) :=
  claim_C7_amended fooIndex fooIndex2 2 ∅ fooAvail2 (by decide) (by decide)

/-- C8: after a valid (successful) sequence of puts and tombstones on a
fresh index, `ki.rev` — the latest reversion — is one of the supplied
`main` values and bounds all of them from above: it is their maximum. -/
theorem claim_C8 (k : List Nat) (ops : List keyOp) (ki : keyIndex)
    (hne : ops ≠ [])
    (h : applyOps (freshKi k) ops = some ki) :
    ki.rev ∈ ops.map keyOp.main ∧ ∀ o ∈ ops, keyOp.main o ≤ ki.rev := by
  obtain ⟨_, hall, hmem⟩ := applyOps_rev_spec ops (freshKi k) ki h
  exact ⟨hmem hne, hall⟩

/-- C8 (witness): on the worked example, the final `rev` 5 is among the
supplied reversions 1..5 and bounds them. -/
theorem claim_C8_witness :
    fooIndex.rev ∈ fooOps.map keyOp.main ∧ ∀ o ∈ fooOps, keyOp.main o ≤ fooIndex.rev :=
  claim_C8 fooKey fooOps fooIndex (by decide) (by decide)

/-- C9: a successful `compact` never changes the key bytes or the latest
reversion `rev` of the index; only the generation list (and the
`available` set) can change. -/
theorem claim_C9 (ki ki' : keyIndex) (atRev : Int) (a a' : Finset reversion)
    (hne : ki.isEmpty = false)
    (hc : ki.compact atRev a = some (ki', a')) :
    ki'.key = ki.key ∧ ki'.rev = ki.rev := by
  rcases compact_cases ki atRev a hne with ⟨hfind, heq⟩ |
    ⟨gi, g, n, b, hfind, hg, hwalk, hb, hble, hnewest, hsub⟩
  · rw [heq] at hc
    simp only [Option.some.injEq, Prod.mk.injEq] at hc
    obtain ⟨hki, ha⟩ := hc
    subst hki
    exact ⟨rfl, rfl⟩
  · rcases hsub with ⟨hcond, heq⟩ | ⟨hcond, heq⟩ <;>
      (rw [heq] at hc;
       simp only [Option.some.injEq, Prod.mk.injEq] at hc;
       obtain ⟨hki, ha⟩ := hc;
       rw [← hki];
       exact ⟨rfl, rfl⟩)

/-- C9 (witness): the frame condition at `compact(2)` on the worked
example. -/
theorem claim_C9_witness :
    fooIndex2.key = fooIndex.key ∧ fooIndex2.rev = fooIndex.rev :=
  claim_C9 fooIndex fooIndex2 2 ∅ fooAvail2 (by decide) (by decide)

/-- C10: a successful `put` leaves an index that is never `isEmpty()` and
whose last generation holds at least one reversion; a successful
`tombstone` leaves an index that is never `isEmpty()` with at least two
generations. -/
theorem claim_C10 (ki : keyIndex) (rev sub : Int) :
    (∀ ki2, ki.put rev sub = some ki2 → ki2.isEmpty = false ∧
      ∃ g0, ki2.generations.getLast? = some g0 ∧ g0.revs ≠ []) ∧
    (∀ ki2, ki.tombstone rev sub = some ki2 → ki2.isEmpty = false ∧
      2 ≤ ki2.generations.length) := by
  constructor
  · intro ki2 h
    obtain ⟨_, _, hlen, g0, hlast, hrevs⟩ := put_some h
    exact ⟨isEmpty_false_of_getLast hlast hrevs, g0, hlast, hrevs⟩
  · intro ki2 h
    obtain ⟨ki1, hput, hk2⟩ := tombstone_some h
    obtain ⟨_, _, hlen, _⟩ := put_some hput
    subst hk2
    have hlen2 : 2 ≤ (ki1.generations ++ [({ ver := 0, revs := [] } : generation)]).length := by
      rw [List.length_append]
      simp
      omega
    exact ⟨isEmpty_false_of_two hlen2, hlen2⟩

/-- C10 (witness): `put(6,0)` on the worked example. -/
theorem claim_C10_witness :
    fooPutIndex.isEmpty = false ∧
      ∃ g0, fooPutIndex.generations.getLast? = some g0 ∧ g0.revs ≠ [] :=
  (claim_C10 fooIndex 6 0).1 fooPutIndex (by decide)
